import Mathlib

set_option maxHeartbeats 1000000

/-!
Shallow embedding of the session-monitoring core of claude-session-monitor
(src-tauri): the JSONL log parser (session/parser.rs), the permission policy
(session/permissions.rs), the status inference engine (session/status.rs),
the process/session correlator (session/detector.rs), the poll/notify loop
(polling.rs) and the conversation lookup (lib.rs).

Machine integers are modelled as Nat/Int; fallible operations return Option
or Except; impure inputs (the clock, the filesystem, the settings file) are
passed explicitly as parameters.
-/

/-- JSON values, modelling serde_json::Value. Numbers are restricted to
integers, which is all the embedded code ever inspects; objects are
association lists in document order. -/
inductive Json where
  | null
  | bool (b : Bool)
  | num (n : Int)
  | str (s : String)
  | arr (items : List Json)
  | obj (fields : List (String × Json))

/-- Field lookup on a JSON object, modelling serde_json::Value::get:
none on non-objects or missing keys. -/
def Json.get? : Json → String → Option Json
  | .obj fields, key => fields.lookup key
  | _, _ => none

/-- Models Value::as_str. -/
def Json.asStr : Json → Option String
  | .str s => some s
  | _ => none

/-- Models deserializing a required String field (serde rejects non-strings). -/
def decodeStr : Json → Option String
  | .str s => some s
  | _ => none

/-- Models deserializing a required bool field. -/
def decodeBool : Json → Option Bool
  | .bool b => some b
  | _ => none

/-- Models serde deserialization of an Option String field: a missing or
null field is None, a string is Some, anything else is an error. -/
def decodeOptStr : Option Json → Option (Option String)
  | none => some none
  | some .null => some none
  | some (.str s) => some (some s)
  | some _ => none

/-- Models serde deserialization of an Option bool field. -/
def decodeOptBool : Option Json → Option (Option Bool)
  | none => some none
  | some .null => some none
  | some (.bool b) => some (some b)
  | some _ => none

/-- Models serde deserialization of an Option u32 field. -/
def decodeOptNat : Option Json → Option (Option Nat)
  | none => some none
  | some .null => some none
  | some (.num n) => if 0 ≤ n ∧ n < 4294967296 then some (some n.toNat) else none
  | some _ => none

/-- Common fields shared across session entries (parser.rs SessionEntryBase).
PathBuf fields are modelled as strings. -/
structure SessionEntryBase where
  uuid : String
  timestamp : String
  session_id : Option String
  cwd : Option String
  version : Option String
  git_branch : Option String
  parent_uuid : Option String
  is_sidechain : Option Bool
  slug : Option String

/-- User message structure (parser.rs UserMessage). -/
structure UserMessage where
  role : String
  content : String
  is_tool_result : Bool

/-- Content block within an assistant message (parser.rs MessageContent). -/
inductive MessageContent where
  | text (t : String)
  | thinking (th : String) (signature : Option String)
  | toolUse (id : String) (name : String) (input : Json)
  | toolResult (tool_use_id : String) (content : String) (is_error : Option Bool)
  | unknown

/-- Token usage information (parser.rs Usage). -/
structure Usage where
  input_tokens : Option Nat
  output_tokens : Option Nat
  cache_creation_input_tokens : Option Nat
  cache_read_input_tokens : Option Nat

/-- Assistant message structure (parser.rs AssistantMessage). -/
structure AssistantMessage where
  model : String
  id : String
  role : String
  content : List MessageContent
  stop_reason : Option String
  stop_sequence : Option String
  usage : Option Usage

/-- A single line entry from a session JSONL file (parser.rs SessionEntry).
The Unknown variant is what the spec calls an Informational entry. -/
inductive SessionEntry where
  | user (base : SessionEntryBase) (message : UserMessage)
  | assistant (base : SessionEntryBase) (message : AssistantMessage)
  | fileHistorySnapshot (message_id : String) (snapshot : Json) (is_snapshot_update : Bool)
  | summary (s : String) (leaf_uuid : String)
  | unknown

/-- The text parts collected from an array-valued user message content,
mirroring the loop in UserMessage::deserialize (parser.rs lines 108-136):
tool_result blocks contribute their string content or the text of each
nested text block; text blocks contribute their text; other blocks nothing. -/
def toolResultParts (items : List Json) : List String :=
  (items.map fun item =>
    match (item.get? "type").bind Json.asStr with
    | some "tool_result" =>
        match item.get? "content" with
        | some (.str s) => [s]
        | some (.arr inner) =>
            inner.filterMap fun block => (block.get? "text").bind Json.asStr
        | _ => []
    | some "text" =>
        match (item.get? "text").bind Json.asStr with
        | some t => [t]
        | none => []
    | _ => []).flatten

/-- The custom Deserialize impl for UserMessage (parser.rs lines 90-153).
It is total: any JSON value deserializes. A string content is a real
prompt; an array content is decoded via toolResultParts, joined by
newlines, and flagged is_tool_result; everything else yields empty
content. -/
def UserMessage.deserialize (j : Json) : UserMessage :=
  let role := match (j.get? "role").bind Json.asStr with
    | some r => r
    | none => "user"
  match j.get? "content" with
  | some (.str s) => ⟨role, s, false⟩
  | some (.arr items) =>
      let parts := toolResultParts items
      ⟨role, if parts.isEmpty then "[tool result]" else String.intercalate "\n" parts, true⟩
  | _ => ⟨role, "", false⟩

/-- Serde deserialization of a MessageContent block: internally tagged by
"type", snake_case variant names, unrecognized tags decode to unknown,
a missing or non-string tag or a non-object is an error. -/
def decodeMessageContent (j : Json) : Option MessageContent :=
  match j with
  | .obj _ =>
    match j.get? "type" with
    | some (.str tag) =>
      if tag = "text" then
        ((j.get? "text").bind decodeStr).map .text
      else if tag = "thinking" then do
        let th ← (j.get? "thinking").bind decodeStr
        let sig ← decodeOptStr (j.get? "signature")
        some (.thinking th sig)
      else if tag = "tool_use" then do
        let id ← (j.get? "id").bind decodeStr
        let name ← (j.get? "name").bind decodeStr
        let input ← j.get? "input"
        some (.toolUse id name input)
      else if tag = "tool_result" then do
        let tid ← (j.get? "tool_use_id").bind decodeStr
        let c ← (j.get? "content").bind decodeStr
        let ie ← decodeOptBool (j.get? "is_error")
        some (.toolResult tid c ie)
      else some .unknown
    | _ => none
  | _ => none

/-- Serde deserialization of an Option Usage field. -/
def decodeOptUsage (o : Option Json) : Option (Option Usage)  :=
  match o with
  | none => some none
  | some .null => some none
  | some j =>
    match j with
    | .obj _ => do
      let it ← decodeOptNat (j.get? "input_tokens")
      let ot ← decodeOptNat (j.get? "output_tokens")
      let cc ← decodeOptNat (j.get? "cache_creation_input_tokens")
      let cr ← decodeOptNat (j.get? "cache_read_input_tokens")
      some (some ⟨it, ot, cc, cr⟩)
    | _ => none

/-- Serde deserialization of an AssistantMessage (derived impl). -/
def decodeAssistantMessage (j : Json) : Option AssistantMessage :=
  match j with
  | .obj _ => do
    let model ← (j.get? "model").bind decodeStr
    let id ← (j.get? "id").bind decodeStr
    let role ← (j.get? "role").bind decodeStr
    let items ← match j.get? "content" with
      | some (.arr xs) => some xs
      | _ => none
    let content ← items.mapM decodeMessageContent
    let sr ← decodeOptStr (j.get? "stop_reason")
    let ss ← decodeOptStr (j.get? "stop_sequence")
    let usage ← decodeOptUsage (j.get? "usage")
    some ⟨model, id, role, content, sr, ss, usage⟩
  | _ => none

/-- Serde deserialization of the flattened SessionEntryBase from the
entry's own object (camelCase field names). -/
def decodeBase (j : Json) : Option SessionEntryBase := do
  let uuid ← (j.get? "uuid").bind decodeStr
  let ts ← (j.get? "timestamp").bind decodeStr
  let sid ← decodeOptStr (j.get? "sessionId")
  let cwd ← decodeOptStr (j.get? "cwd")
  let ver ← decodeOptStr (j.get? "version")
  let gb ← decodeOptStr (j.get? "gitBranch")
  let pu ← decodeOptStr (j.get? "parentUuid")
  let isc ← decodeOptBool (j.get? "isSidechain")
  let slug ← decodeOptStr (j.get? "slug")
  some ⟨uuid, ts, sid, cwd, ver, gb, pu, isc, slug⟩

/-- The tag strings of the recognized SessionEntry variants. -/
def knownEntryTags : List String :=
  ["user", "assistant", "file-history-snapshot", "summary"]

/-- Serde deserialization of a SessionEntry (derived impl, internally
tagged by "type", lowercase variant names, with a serde(other) Unknown
variant): an unrecognized tag string decodes to unknown; a missing or
non-string tag, a non-object line, or a recognized tag with malformed
fields is an error (none). -/
def decodeSessionEntry (j : Json) : Option SessionEntry :=
  match j with
  | .obj _ =>
    match j.get? "type" with
    | some (.str tag) =>
      if tag = "user" then do
        let base ← decodeBase j
        let mj ← j.get? "message"
        some (.user base (UserMessage.deserialize mj))
      else if tag = "assistant" then do
        let base ← decodeBase j
        let mj ← j.get? "message"
        let m ← decodeAssistantMessage mj
        some (.assistant base m)
      else if tag = "file-history-snapshot" then do
        let mid ← (j.get? "messageId").bind decodeStr
        let snap ← j.get? "snapshot"
        let isu ← (j.get? "isSnapshotUpdate").bind decodeBool
        some (.fileHistorySnapshot mid snap isu)
      else if tag = "summary" then do
        let s ← (j.get? "summary").bind decodeStr
        let lu ← (j.get? "leafUuid").bind decodeStr
        some (.summary s lu)
      else some .unknown
    | _ => none
  | _ => none

/-- One physical line of a JSONL file: blank (whitespace only), lexically
invalid JSON, or a JSON value. serde_json fails on the first two kinds. -/
inductive RawLine where
  | blank
  | nonJson
  | jsonLine (j : Json)

/-- Whether a raw line is blank, modelling line.trim().is_empty(). -/
def RawLine.isBlank : RawLine → Bool
  | .blank => true
  | _ => false

/-- serde_json::from_str for a SessionEntry applied to one raw line:
blank and lexically invalid lines fail, JSON lines go through the
derived deserializer. -/
def decodeLine : RawLine → Option SessionEntry
  | .jsonLine j => decodeSessionEntry j
  | _ => none

/-- parse_jsonl_entries (parser.rs lines 263-268): decode each line,
keeping only the successful decodes, in order (filter_map over Result::ok). -/
def parse_jsonl_entries (lines : List RawLine) : List SessionEntry :=
  lines.filterMap decodeLine

/-- A JSONL file on disk: its physical lines together with each line's
size in bytes (content plus terminating newline). -/
structure JsonlFile where
  lines : List (Nat × RawLine)

/-- Total byte size of the file. -/
def JsonlFile.size (f : JsonlFile) : Nat :=
  (f.lines.map Prod.fst).sum

/-- The non-blank lines of the file, in order, modelling the
filter(!line.trim().is_empty()) applied after BufReader::lines. -/
def JsonlFile.nonblank (f : JsonlFile) : List RawLine :=
  (f.lines.map Prod.snd).filter (fun l => !l.isBlank)

/-- The last n elements of a list (lines[start..] with
start = len - n when len > n, else 0). -/
def lastN (l : List α) (n : Nat) : List α :=
  l.drop (l.length - n)

/-- A line whose first bytes were cut off by seeking into the middle of
it: a blank line stays blank, any other line no longer lexes as JSON.
(A cut that happens to land exactly on the line's final newline, or to
leave a valid JSON suffix, is conservatively modelled as invalid too;
either way the suffix never decodes to the original entry.) -/
def truncateLine : RawLine → RawLine
  | .blank => .blank
  | _ => .nonJson

/-- The lines visible when reading forward from byte offset p of the
file: lines wholly before p disappear, a line straddling p is truncated,
lines at or after p are intact. -/
def chunkLines : Nat → List (Nat × RawLine) → List RawLine
  | _, [] => []
  | 0, ls => ls.map Prod.snd
  | p, (len, l) :: rest =>
    if p < len then truncateLine l :: rest.map Prod.snd
    else chunkLines (p - len) rest

/-- read_last_n_lines (parser.rs lines 215-260): an empty file yields no
lines; a file under 10,000 bytes is read whole and the last n non-blank
lines returned; a larger file is read from byte offset size - min (n*2048)
size (SeekFrom::End of minus chunk_size) and the last n non-blank lines
of that suffix returned. -/
def read_last_n_lines (f : JsonlFile) (n : Nat) : List RawLine :=
  if f.size = 0 then []
  else if f.size < 10000 then lastN f.nonblank n
  else
    let chunk := min (n * 1024 * 2) f.size
    lastN ((chunkLines (f.size - chunk) f.lines).filter (fun l => !l.isBlank)) n

/-- parse_last_n_entries (parser.rs lines 271-277). -/
def parse_last_n_entries (f : JsonlFile) (n : Nat) : List SessionEntry :=
  parse_jsonl_entries (read_last_n_lines f n)

/-- parse_all_entries (parser.rs lines 280-292): every non-blank line of
the file, decoded. -/
def parse_all_entries (f : JsonlFile) : List SessionEntry :=
  parse_jsonl_entries f.nonblank

/-- str::starts_with over the characters of the strings. -/
def strStartsWith (s pre : String) : Bool :=
  List.isPrefixOf pre.toList s.toList

/-- str::ends_with over the characters of the strings. -/
def strEndsWith (s suf : String) : Bool :=
  List.isSuffixOf suf.toList s.toList

/-- str::contains for a single character. -/
def strContainsChar (s : String) (c : Char) : Bool :=
  s.toList.contains c

/-- Whether sub occurs as a contiguous run within a character list. -/
def charsContainSub (sub : List Char) : List Char → Bool
  | [] => sub.isEmpty
  | c :: cs => sub.isPrefixOf (c :: cs) || charsContainSub sub cs

/-- str::contains for a substring. -/
def strContainsSub (s sub : String) : Bool :=
  charsContainSub sub.toList s.toList

/-- str::trim: leading and trailing whitespace removed (at the
whitespace granularity of Char.isWhitespace). -/
def strTrim (s : String) : String :=
  String.mk
    (((s.toList.dropWhile Char.isWhitespace).reverse.dropWhile Char.isWhitespace).reverse)

/-- Split a character list on a separator character, str::split style:
the empty input yields one empty group. -/
def splitChars (sep : Char) (cs : List Char) : List (List Char) :=
  cs.foldr
    (fun c acc =>
      match acc with
      | [] => [[c]]
      | g :: gs => if c = sep then [] :: g :: gs else (c :: g) :: gs)
    [[]]

/-- Split a string on a separator character. -/
def strSplitOnChar (s : String) (sep : Char) : List String :=
  (splitChars sep s.toList).map String.mk

/-- An allow-pattern from the settings file (permissions.rs AllowPattern).
The bash pattern's field is named prefix in the source. -/
inductive AllowPattern where
  | bash (pfx : String) (wildcard : Bool)
  | tool (name : String)
  | mcp (name : String)
  | skill (name : String)
deriving DecidableEq

/-- Cached permissions for quick lookup (permissions.rs PermissionChecker). -/
structure PermissionChecker where
  allowed_patterns : List AllowPattern
deriving DecidableEq

/-- PermissionChecker::parse_pattern (permissions.rs lines 75-115). -/
def parse_pattern (p : String) : Option AllowPattern :=
  if strStartsWith p "Bash(" ∧ strEndsWith p ")" then
    let inner := (p.drop 5).dropRight 1
    if strEndsWith inner ":*" then some (.bash (inner.dropRight 2) true)
    else some (.bash inner false)
  else if strStartsWith p "mcp__" then some (.mcp p)
  else if strStartsWith p "Skill(" ∧ strEndsWith p ")" then
    some (.skill ((p.drop 6).dropRight 1))
  else if ¬ strContainsChar p '(' ∧ ¬ strContainsSub p "__" then some (.tool p)
  else none

/-- The permissions.allow list of the settings file
(permissions.rs ClaudeSettings / Permissions). -/
structure PermissionsAllow where
  allow : Option (List String)

/-- Serde deserialization of the permissions object. -/
def decodePermissionsAllow (j : Json) : Option PermissionsAllow :=
  match j with
  | .obj _ =>
    match j.get? "allow" with
    | none => some ⟨none⟩
    | some .null => some ⟨none⟩
    | some (.arr xs) => (xs.mapM decodeStr).map fun l => ⟨some l⟩
    | some _ => none
  | _ => none

/-- Serde deserialization of ClaudeSettings: the Option permissions field. -/
def decodeClaudeSettings (j : Json) : Option (Option PermissionsAllow) :=
  match j with
  | .obj _ =>
    match j.get? "permissions" with
    | none => some none
    | some .null => some none
    | some pj => (decodePermissionsAllow pj).map some
  | _ => none

/-- PermissionChecker::from_file (permissions.rs lines 48-72). The
settings source is passed explicitly: none models a read failure,
some none a file whose content is not valid JSON, some (some j) a file
parsing to the JSON value j. Every failure path degrades to the default
(empty) checker. -/
def PermissionChecker.from_file (source : Option (Option Json)) : PermissionChecker :=
  match source with
  | none => ⟨[]⟩
  | some none => ⟨[]⟩
  | some (some j) =>
    match decodeClaudeSettings j with
    | none => ⟨[]⟩
    | some settings =>
      ⟨((settings.bind fun p => p.allow).getD []).filterMap parse_pattern⟩

/-- The per-pattern test inside the loop of
PermissionChecker::is_bash_allowed (permissions.rs lines 164-178):
a bash pattern matches the (already trimmed) command by string prefix
when it carried a :* wildcard and by equality otherwise; non-bash
patterns never match. -/
def bashPatternMatches (pat : AllowPattern) (t : String) : Bool :=
  match pat with
  | .bash p w => if w then strStartsWith t p else t = p
  | _ => false

/-- PermissionChecker::is_bash_allowed (permissions.rs lines 161-181):
the command is trimmed, then any bash allow-pattern may match it. -/
def PermissionChecker.is_bash_allowed (c : PermissionChecker) (command : String) : Bool :=
  c.allowed_patterns.any fun pat => bashPatternMatches pat (strTrim command)

/-- PermissionChecker::is_tool_allowed (permissions.rs lines 184-193). -/
def PermissionChecker.is_tool_allowed (c : PermissionChecker) (tool_name : String) : Bool :=
  c.allowed_patterns.any fun pat =>
    match pat with
    | .tool name => name = tool_name
    | _ => false

/-- PermissionChecker::is_mcp_allowed (permissions.rs lines 196-205). -/
def PermissionChecker.is_mcp_allowed (c : PermissionChecker) (tool_name : String) : Bool :=
  c.allowed_patterns.any fun pat =>
    match pat with
    | .mcp name => name = tool_name
    | _ => false

/-- The hard-coded always-approved read-only tool set
(permissions.rs lines 127-133). -/
def alwaysApprovedTools : List String :=
  ["Read", "Glob", "Grep", "WebFetch", "WebSearch", "Task", "TaskList",
   "TaskGet", "TaskCreate", "TaskUpdate", "AskUserQuestion"]

/-- PermissionChecker::is_auto_approved (permissions.rs lines 125-158). -/
def PermissionChecker.is_auto_approved
    (c : PermissionChecker) (tool_name : String) (tool_input : Json) : Bool :=
  if alwaysApprovedTools.contains tool_name then true
  else if tool_name = "Bash" then
    c.is_bash_allowed (((tool_input.get? "command").bind Json.asStr).getD "")
  else if tool_name = "Write" ∨ tool_name = "Edit" ∨ tool_name = "NotebookEdit" then
    c.is_tool_allowed tool_name
  else if strStartsWith tool_name "mcp__" then
    c.is_mcp_allowed tool_name
  else false

/-- Whether a (proleptic Gregorian) year is a leap year. -/
def isLeapYear (y : Int) : Bool :=
  (y % 4 = 0 ∧ y % 100 ≠ 0) ∨ y % 400 = 0

/-- Days in a given month of a given year. -/
def daysInMonth (y m : Int) : Int :=
  if m = 1 ∨ m = 3 ∨ m = 5 ∨ m = 7 ∨ m = 8 ∨ m = 10 ∨ m = 12 then 31
  else if m = 2 then (if isLeapYear y then 29 else 28)
  else 30

/-- Days since 1970-01-01 of the civil date y-m-d, by the standard
days-from-civil algorithm (floor division where signs may differ). -/
def daysFromCivil (y m d : Int) : Int :=
  let yy := y - (if m ≤ 2 then 1 else 0)
  let era := Int.fdiv yy 400
  let yoe := yy - era * 400
  let doy := (153 * (m + (if m > 2 then (-3 : Int) else 9)) + 2) / 5 + d - 1
  let doe := yoe * 365 + yoe / 4 - yoe / 100 + doy
  era * 146097 + doe - 719468

/-- The numeric value of a decimal digit character. -/
def digitVal? (c : Char) : Option Int :=
  if c.isDigit then some ((c.toNat : Int) - 48) else none

/-- Two decimal digits. -/
def twoDigits? (a b : Char) : Option Int := do
  let x ← digitVal? a
  let y ← digitVal? b
  some (x * 10 + y)

/-- Skip an optional fractional-seconds part: a dot must be followed by
at least one digit. -/
def dropFraction : List Char → Option (List Char)
  | '.' :: cs =>
      if (cs.takeWhile Char.isDigit).isEmpty then none
      else some (cs.dropWhile Char.isDigit)
  | cs => some cs

/-- Parse the timezone suffix, returning the offset east of UTC in
seconds: Z/z, or a +hh:mm / -hh:mm numeric offset. -/
def parseTzOffset : List Char → Option Int
  | ['Z'] => some 0
  | ['z'] => some 0
  | [sgn, a, b, ':', c, d] => do
      if sgn = '+' ∨ sgn = '-' then
        let hh ← twoDigits? a b
        let mm ← twoDigits? c d
        if hh ≤ 23 ∧ mm ≤ 59 then
          let off := hh * 3600 + mm * 60
          some (if sgn = '+' then off else -off)
        else none
      else none
  | _ => none

/-- Modelled from the external chrono crate:
DateTime::parse_from_rfc3339 followed by conversion to a UTC Unix
timestamp in whole seconds. Accepts YYYY-MM-DDTHH:MM:SS with an optional
fractional part (ignored, as the embedding works at second granularity),
T/t/space as the date-time separator, Z/z or a numeric offset as the
timezone, and validates calendar ranges (leap years included); a leap
second :60 is accepted and counted as :59, as chrono does. Returns none
for every other string. -/
def parseRFC3339 (s : String) : Option Int :=
  match s.toList with
  | y1 :: y2 :: y3 :: y4 :: '-' :: m1 :: m2 :: '-' :: d1 :: d2 :: t ::
      h1 :: h2 :: ':' :: n1 :: n2 :: ':' :: s1 :: s2 :: rest => do
    if t = 'T' ∨ t = 't' ∨ t = ' ' then
      let yh ← twoDigits? y1 y2
      let yl ← twoDigits? y3 y4
      let y := yh * 100 + yl
      let mo ← twoDigits? m1 m2
      let da ← twoDigits? d1 d2
      let ho ← twoDigits? h1 h2
      let mi ← twoDigits? n1 n2
      let se ← twoDigits? s1 s2
      if 1 ≤ mo ∧ mo ≤ 12 ∧ 1 ≤ da ∧ da ≤ daysInMonth y mo ∧
          ho ≤ 23 ∧ mi ≤ 59 ∧ se ≤ 60 then
        let rest' ← dropFraction rest
        let off ← parseTzOffset rest'
        some (daysFromCivil y mo da * 86400 + ho * 3600 + mi * 60 + min se 59 - off)
      else none
    else none
  | _ => none

/-- Represents the current status of a session (status.rs SessionStatus). -/
inductive SessionStatus where
  | working
  | needsPermission
  | waitingForInput
  | connecting
deriving DecidableEq

/-- is_entry_recent (status.rs lines 137-146): true when the timestamp
parses as RFC3339 and now minus it is under the threshold; an
unparseable timestamp is never recent. The wall clock now (Unix seconds)
is passed explicitly. -/
def is_entry_recent (now : Int) (timestamp : String) (seconds : Int) : Bool :=
  match parseRFC3339 timestamp with
  | some t => now - t < seconds
  | none => false

/-- Whether a content block is a ToolUse. -/
def MessageContent.isToolUse : MessageContent → Bool
  | .toolUse _ _ _ => true
  | _ => false

/-- The ids of the tool_use blocks of a turn. -/
def toolUseIds (content : List MessageContent) : List String :=
  content.filterMap fun c =>
    match c with
    | .toolUse id _ _ => some id
    | _ => none

/-- The tool_use_ids of the tool_result blocks of a turn. -/
def toolResultIds (content : List MessageContent) : List String :=
  content.filterMap fun c =>
    match c with
    | .toolResult tid _ _ => some tid
    | _ => none

/-- check_all_tools_completed (status.rs lines 297-327): every tool_use
id has a matching tool_result id within the same turn (vacuously true
when no tools were used). -/
def check_all_tools_completed (content : List MessageContent) : Bool :=
  let useIds := toolUseIds content
  if useIds.isEmpty then true
  else useIds.all fun id => (toolResultIds content).contains id

/-- has_pending_tool_uses (status.rs lines 292-294). -/
def has_pending_tool_uses (content : List MessageContent) : Bool :=
  ! check_all_tools_completed content

/-- are_pending_tools_auto_approved (status.rs lines 197-230): every
tool_use without a matching result in the same turn must be approved by
the permission checker (passed explicitly; the source reads a
process-global checker loaded once from the settings file). -/
def are_pending_tools_auto_approved
    (checker : PermissionChecker) (content : List MessageContent) : Bool :=
  content.all fun item =>
    match item with
    | .toolUse id name input =>
        (toolResultIds content).contains id || checker.is_auto_approved name input
    | _ => true

/-- analyze_assistant_message (status.rs lines 149-194). -/
def analyze_assistant_message
    (checker : PermissionChecker) (m : AssistantMessage) : SessionStatus :=
  if m.content.any MessageContent.isToolUse then
    if check_all_tools_completed m.content then
      match m.stop_reason with
      | some "end_turn" => .waitingForInput
      | some "tool_use" => .working
      | some "max_tokens" => .waitingForInput
      | some "stop_sequence" => .waitingForInput
      | _ => .waitingForInput
    else if are_pending_tools_auto_approved checker m.content then .working
    else .needsPermission
  else
    match m.stop_reason with
    | some "end_turn" => .waitingForInput
    | some "max_tokens" => .waitingForInput
    | some "stop_sequence" => .waitingForInput
    | none => .working
    | _ => .waitingForInput

/-- Whether an entry is a meaningful (User or Assistant) entry. -/
def SessionEntry.isMeaningful : SessionEntry → Bool
  | .user _ _ => true
  | .assistant _ _ => true
  | _ => false

/-- Whether an entry is the Unknown (informational) variant. -/
def SessionEntry.isUnknownEntry : SessionEntry → Bool
  | .unknown => true
  | _ => false

/-- The last User or Assistant entry of the window
(entries.iter().rev().find in status.rs lines 48-50). -/
def lastMeaningfulEntry (entries : List SessionEntry) : Option SessionEntry :=
  entries.reverse.find? SessionEntry.isMeaningful

/-- Whether any Unknown (progress) entries occur after the last
meaningful entry (status.rs lines 59-64). -/
def hasTrailingProgress (entries : List SessionEntry) : Bool :=
  (entries.reverse.takeWhile fun e => !e.isMeaningful).any SessionEntry.isUnknownEntry

/-- determine_status (status.rs lines 38-134), with the permission
checker and the wall clock passed explicitly. -/
def determine_status
    (checker : PermissionChecker) (now : Int) (entries : List SessionEntry) :
    SessionStatus :=
  if entries.isEmpty then .connecting
  else
    match lastMeaningfulEntry entries with
    | none => .connecting
    | some lastEntry =>
      match lastEntry with
      | .user base message =>
        if message.is_tool_result then
          if is_entry_recent now base.timestamp 30 then .working else .waitingForInput
        else if is_entry_recent now base.timestamp 30 then .working
        else .waitingForInput
      | .assistant base message =>
        match analyze_assistant_message checker message with
        | .working =>
          if has_pending_tool_uses message.content then
            if hasTrailingProgress entries || is_entry_recent now base.timestamp 20 then
              .working
            else
              .working
          else if is_entry_recent now base.timestamp 20 then .working
          else .waitingForInput
        | .needsPermission => .needsPermission
        | s => s
      | _ => .waitingForInput

/-- Internal representation of a running claude process
(detector.rs ClaudeProcess): pid, optional working directory (as a list
of absolute path components) and start time in Unix seconds. -/
structure ClaudeProcess where
  pid : Nat
  cwd : Option (List String)
  start_time : Nat
deriving DecidableEq

/-- One candidate session log file, i.e. one element of the
session_files vector collected in detector.rs find_active_sessions
(lines 89-150): modification time in Unix seconds, the session id
(the file stem), the project directory it lives in (path components),
the project path resolved from the index (or the directory itself when
no index entry exists), the display name, and whether the project path
came from the index. -/
structure SessionFileInfo where
  modified : Nat
  sid : String
  project_dir : List String
  project_path : List String
  project_name : String
  has_reliable_path : Bool
deriving DecidableEq

/-- The correlator's output unit (detector.rs DetectedSession). -/
structure DetectedSession where
  pid : Nat
  cwd : List String
  project_path : List String
  session_id : Option String
  project_name : String
deriving DecidableEq

/-- The string form of an absolute path given as components
(Unix separators, as Claude's project paths use). -/
def pathToString (p : List String) : String :=
  String.join (p.map fun comp => "/" ++ comp)

/-- One character of the separator-substituted encoding
(detector.rs lines 174-179): slashes, backslashes and underscores fold
to a dash, colons are dropped. -/
def encodeChar (c : Char) : String :=
  if c = '\\' ∨ c = '/' ∨ c = '_' then "-"
  else if c = ':' then ""
  else String.singleton c

/-- The encoded form of a working directory used to compare against
project directory names. -/
def encodedCwd (cwd : List String) : String :=
  String.join ((pathToString cwd).toList.map encodeChar)

/-- The path_matches closure (detector.rs lines 182-200): a direct
comparison against the index-resolved project path (exact or
subdirectory, only when that path is reliable), or the encoded working
directory equalling the project directory's name. -/
def pathMatches (proc_cwd : List String) (encoded : String) (f : SessionFileInfo) : Bool :=
  let dirName := (f.project_dir.getLast?).getD ""
  let directMatch :=
    if f.has_reliable_path then
      proc_cwd = f.project_path ∨ f.project_path.isPrefixOf proc_cwd
    else false
  directMatch ∨ dirName = encoded

/-- The session_available closure (detector.rs lines 203-208). -/
def sessionAvailable (used : List String) (f : SessionFileInfo) : Bool :=
  ! used.contains f.sid

/-- The find predicate of detector.rs lines 214-230: the session is
unclaimed, was modified at or after process start minus a 5 second grace
buffer, and its directory matches the process. (Modification times
before the Unix epoch, which the source treats as never matching, are
outside this model.) -/
def fileEligible (used : List String) (p : ClaudeProcess) (cwd : List String)
    (f : SessionFileInfo) : Bool :=
  sessionAvailable used f &&
    (decide (f.modified + 5 ≥ p.start_time)) &&
    pathMatches cwd (encodedCwd cwd) f

/-- The per-process loop of find_active_sessions (detector.rs lines
164-248): for each process in order, skip it if it has no working
directory, otherwise claim the first eligible file of the (sorted)
candidate list and emit a DetectedSession. -/
def faGo (files : List SessionFileInfo) :
    List ClaudeProcess → List String → List DetectedSession
  | [], _ => []
  | p :: rest, used =>
    match p.cwd with
    | none => faGo files rest used
    | some cwd =>
      match files.find? (fileEligible used p cwd) with
      | none => faGo files rest used
      | some f =>
          ⟨p.pid, cwd, f.project_dir, some f.sid, f.project_name⟩ ::
            faGo files rest (f.sid :: used)

/-- Insert an element into a sorted list, before the first element it
may precede: the insertion step of a stable sort. -/
def insertLe (le : α → α → Bool) (a : α) : List α → List α
  | [] => [a]
  | b :: bs => if le a b then a :: b :: bs else b :: insertLe le a bs

/-- A stable sort by a total comparator (insertion sort), modelling
Rust's stable Vec::sort_by: for a total comparator the stable sorted
order is unique, so any stable sort computes slice::sort_by's result. -/
def sortBy (le : α → α → Bool) : List α → List α
  | [] => []
  | a :: as => insertLe le a (sortBy le as)

/-- find_active_sessions (detector.rs lines 82-251): sort the candidate
files by modification time descending and the processes by start time
descending (both sorts stable, as Rust's sort_by is), then bind each
process to the first still-unclaimed eligible candidate. -/
def find_active_sessions
    (processes : List ClaudeProcess) (session_files : List SessionFileInfo) :
    List DetectedSession :=
  let sortedFiles := sortBy (fun a b => b.modified ≤ a.modified) session_files
  let sortedProcs := sortBy (fun a b => b.start_time ≤ a.start_time) processes
  faGo sortedFiles sortedProcs []

/-- The session ids claimed by a correlator run. -/
def claimedIds (out : List DetectedSession) : List String :=
  out.filterMap fun s => s.session_id

/-- A session as the poll loop sees it: its id and the status inferred
this cycle (the other Session fields do not influence the notification
logic of polling.rs). -/
structure PollSessionView where
  id : String
  status : SessionStatus
deriving DecidableEq

/-- The cross-cycle state owned by the poll loop (polling.rs lines
64-75): previous statuses and last notification times, both keyed by
session id (association lists model the HashMaps), plus the first-cycle
flag. Times are Unix seconds modelling Instant values. -/
structure PollState where
  previous_status : List (String × SessionStatus)
  last_notification_time : List (String × Nat)
  is_first_cycle : Bool
deriving DecidableEq

/-- HashMap::insert on the association-list model: the new binding
replaces any old binding of the key. -/
def alInsert (m : List (String × α)) (k : String) (v : α) : List (String × α) :=
  (k, v) :: m.filter fun kv => ! (kv.1 == k)

/-- HashMap::retain keeping only keys present in the given id list. -/
def alRetain (m : List (String × α)) (ids : List String) : List (String × α) :=
  m.filter fun kv => ids.contains kv.1

/-- Whether a notification fires for one session this cycle, given the
cycle-start maps (polling.rs lines 98-120): the session's previous
status must be recorded as Working, its current status NeedsPermission
or WaitingForInput, and no notification for the same id may have fired
within the last 30 seconds. -/
def shouldFireNotification
    (prev : List (String × SessionStatus)) (lastNotif : List (String × Nat))
    (now : Nat) (s : PollSessionView) : Bool :=
  (prev.lookup s.id = some .working) &&
    (s.status = .needsPermission ∨ s.status = .waitingForInput) &&
    ! (match lastNotif.lookup s.id with
       | some t => now - t < 30
       | none => false)

/-- The notification loop over this cycle's sessions (polling.rs lines
96-141): returns the updated previous-status map, the updated
last-notification map, and the ids notified, in order. -/
def notifyLoop (now : Nat) :
    List PollSessionView → List (String × SessionStatus) → List (String × Nat) →
    List (String × SessionStatus) × List (String × Nat) × List String
  | [], prev, lastNotif => (prev, lastNotif, [])
  | s :: rest, prev, lastNotif =>
    match prev.lookup s.id with
    | some prevStatus =>
      let shouldNotify := prevStatus = .working &&
        (s.status = .needsPermission ∨ s.status = .waitingForInput)
      let onCooldown :=
        match lastNotif.lookup s.id with
        | some t => now - t < 30
        | none => false
      if shouldNotify && !onCooldown then
        let out := notifyLoop now rest (alInsert prev s.id s.status) (alInsert lastNotif s.id now)
        (out.1, out.2.1, s.id :: out.2.2)
      else
        let out := notifyLoop now rest (alInsert prev s.id s.status) lastNotif
        out
    | none =>
      notifyLoop now rest (alInsert prev s.id s.status) lastNotif

/-- One cycle of the poll loop's notification state machine (polling.rs
lines 77-177, with detection, emission and broadcasting abstracted
away): given the current state, the clock and this cycle's detected
sessions, produce the next state and the session ids notified. On the
first cycle the previous-status map is seeded silently; on later cycles
transitions are diffed and debounced; in every cycle both maps are
pruned to the sessions present. -/
def pollCycle (st : PollState) (now : Nat) (sessions : List PollSessionView) :
    PollState × List String :=
  let currentIds := sessions.map fun s => s.id
  if st.is_first_cycle then
    let prev := sessions.foldl (fun m s => alInsert m s.id s.status) st.previous_status
    (⟨alRetain prev currentIds, alRetain st.last_notification_time currentIds, false⟩, [])
  else
    let out := notifyLoop now sessions st.previous_status st.last_notification_time
    (⟨alRetain out.1 currentIds, alRetain out.2.1 currentIds, false⟩, out.2.2)

/-- Message type enumeration (parser.rs MessageType). -/
inductive MessageType where
  | user
  | assistant
  | thinking
  | toolUse
  | toolResult
deriving DecidableEq

/-- A JSON value rendered back to text, modelling serde_json's printing
of the tool input inside extract_messages (up to whitespace and string
escaping, which no claim depends on). -/
def Json.render : Json → String
  | .null => "null"
  | .bool b => if b then "true" else "false"
  | .num n => toString n
  | .str s => "\"" ++ s ++ "\""
  | .arr items => "[" ++ String.intercalate ", " (items.attach.map fun x => x.1.render) ++ "]"
  | .obj fields =>
      "\x7b" ++
        String.intercalate ", "
          (fields.attach.map fun x => "\"" ++ x.1.1 ++ "\": " ++ x.1.2.render) ++
      "\x7d"
decreasing_by
  · have hx := List.sizeOf_lt_of_mem x.2
    simp only [Json.arr.sizeOf_spec]
    omega
  · have hx := List.sizeOf_lt_of_mem x.2
    have h3 : sizeOf x.1.2 < sizeOf x.1 := by
      obtain ⟨a, b⟩ := x.1
      simp only [Prod.mk.sizeOf_spec]
      omega
    simp only [Json.obj.sizeOf_spec]
    omega

/-- extract_messages (parser.rs lines 295-373): flatten the entries into
(timestamp, message type, content) triples. -/
def extract_messages (entries : List SessionEntry) :
    List (String × MessageType × String) :=
  (entries.map fun entry =>
    match entry with
    | .user base message =>
        if message.is_tool_result then [(base.timestamp, MessageType.toolResult, message.content)]
        else [(base.timestamp, MessageType.user, message.content)]
    | .assistant base message =>
        message.content.filterMap fun content =>
          match content with
          | .text t => some (base.timestamp, MessageType.assistant, t)
          | .thinking th _ => some (base.timestamp, MessageType.thinking, th)
          | .toolUse id name input =>
              some (base.timestamp, MessageType.toolUse,
                "[" ++ name ++ "] " ++ id ++ " - " ++ input.render)
          | .toolResult tid c ie =>
              some (base.timestamp, MessageType.toolResult,
                "[" ++ (if ie.getD false then "Error" else "Result") ++ "] " ++ tid ++ ": " ++ c)
          | .unknown => none
    | _ => []).flatten

/-- Conversation structure for the frontend (lib.rs Conversation), with
messages as (timestamp, type, content) triples. -/
structure Conversation where
  session_id : String
  messages : List (String × MessageType × String)
deriving DecidableEq

/-- A view of the filesystem relevant to the conversation lookup:
the set of directories and the JSONL files with their contents, both
given by absolute paths as component lists, in listing order. -/
structure FileSystem where
  dirs : List (List String)
  files : List (List String × JsonlFile)

/-- Whether a path is a directory of the filesystem. -/
def FileSystem.isDir (fs : FileSystem) (p : List String) : Bool :=
  fs.dirs.contains p

/-- Models std::fs::read_dir: the immediate children (directories and
files) of a directory, or none when it does not exist. -/
def FileSystem.readDir (fs : FileSystem) (p : List String) : Option (List (List String)) :=
  if fs.isDir p then
    some ((fs.dirs ++ fs.files.map Prod.fst).filter fun q => q.dropLast = p ∧ q ≠ p)
  else none

/-- Models Path::join with a relative path string followed by the
kernel's resolution when the path is accessed: the string is split on
separators, dot-dot components pop a component (stopping at the root),
dot and empty components are ignored. -/
def joinResolve (base : List String) (rel : String) : List String :=
  (strSplitOnChar rel '/').foldl
    (fun acc comp =>
      if comp = ".." then acc.dropLast
      else if comp = "." ∨ comp = "" then acc
      else acc ++ [comp])
    base

/-- Models Path::exists after resolution. -/
def FileSystem.pathExists (fs : FileSystem) (p : List String) : Bool :=
  ((fs.files.map Prod.fst).contains p) || fs.dirs.contains p

/-- The body of the per-project loop of get_conversation_data (lib.rs
lines 80-107): scan the project directories in listing order; in the
first one where session_id ++ ".jsonl" resolves to an existing path,
parse that file fully and extract the conversation. -/
def conversationScan (fs : FileSystem) (session_filename : String)
    (session_id : String) : List (List String) → Except String Conversation
  | [] =>
    .error ("Session " ++ session_id ++ " not found in any project directory")
  | entry :: rest =>
    if fs.isDir entry then
      let session_file := joinResolve entry session_filename
      if fs.pathExists session_file then
        match fs.files.lookup session_file with
        | some content =>
            .ok ⟨session_id, extract_messages (parse_all_entries content)⟩
        | none => .error "Failed to parse session file: not a regular file"
      else conversationScan fs session_filename session_id rest
    else conversationScan fs session_filename session_id rest

/-- get_conversation_data (lib.rs lines 71-113), with the filesystem and
the home directory passed explicitly. The session id is interpolated
directly into a file name and joined onto each project directory; no
validation of the identifier is performed anywhere on the path. -/
def get_conversation_data (fs : FileSystem) (home : List String)
    (session_id : String) : Except String Conversation :=
  let claude_projects_dir := home ++ [".claude", "projects"]
  match fs.readDir claude_projects_dir with
  | none => .error "Failed to read projects directory"
  | some entries =>
      conversationScan fs (session_id ++ ".jsonl") session_id entries

/-- The bash-command approval relation as the specification words it:
the invocation's command string matches some allow-pattern, by string
prefix for a wildcard pattern and exactly for a non-wildcard pattern.
Stated from the spec for comparison with the source's matcher, which
first trims the command. -/
def specBashCommandMatches (patterns : List AllowPattern) (command : String) : Bool :=
  patterns.any fun pat =>
    match pat with
    | .bash p w => if w then strStartsWith command p else command = p
    | _ => false

/-- A session entry base with a given timestamp and no optional fields. -/
def plainBase (ts : String) : SessionEntryBase :=
  ⟨"uuid-1", ts, none, none, none, none, none, none, none⟩

/-- The home directory of the traversal scenario (the repository's own
security test, tests/security_tests.rs). -/
def c9home : List String := ["tmp", "c9home"]

/-- The secret JSONL line of the traversal scenario: a user record whose
content is the string SECRET_DATA. -/
def secretEntryJson : Json :=
  .obj [("type", .str "user"), ("uuid", .str "1"),
        ("timestamp", .str "2023-01-01"),
        ("message", .obj [("role", .str "user"), ("content", .str "SECRET_DATA")])]

/-- The secret file HOME/secret.jsonl of the traversal scenario. -/
def secretJsonl : JsonlFile := ⟨[(100, .jsonLine secretEntryJson)]⟩

/-- The filesystem of the traversal scenario: an empty project directory
HOME/.claude/projects/project1 and a secret file HOME/secret.jsonl
outside the projects tree. -/
def traversalFS : FileSystem :=
  ⟨[c9home, c9home ++ [".claude"], c9home ++ [".claude", "projects"],
    c9home ++ [".claude", "projects", "project1"]],
   [(c9home ++ ["secret.jsonl"], secretJsonl)]⟩

/-- A well-formed user JSONL line. -/
def wfUserJson : Json :=
  .obj [("type", .str "user"), ("uuid", .str "u1"),
        ("timestamp", .str "2026-01-01T00:00:00Z"),
        ("message", .obj [("role", .str "user"), ("content", .str "hello")])]

/-- The raw line carrying wfUserJson. -/
def wfUserLine : RawLine := .jsonLine wfUserJson

/-- The session entry wfUserJson decodes to. -/
def wfUserEntry : SessionEntry :=
  .user (⟨"u1", "2026-01-01T00:00:00Z", none, none, none, none, none, none, none⟩)
    ⟨"user", "hello", false⟩

/-- A timestamp used in the recency scenarios. -/
def tsRecent : String := "2026-01-08T15:23:03Z"

/-- A clock reading five seconds after tsRecent. -/
def nowAfterTs : Int := (parseRFC3339 tsRecent).getD 0 + 5

/-- A completed text-only assistant turn with stop reason end_turn. -/
def endTurnMsg : AssistantMessage :=
  ⟨"model-1", "msg-1", "assistant", [.text "Hello there!"], some "end_turn", none, none⟩

/-- A streaming text-only assistant turn with no stop reason. -/
def streamingMsg : AssistantMessage :=
  ⟨"model-1", "msg-2", "assistant", [.text "Working on it..."], none, none, none⟩

/-- An assistant turn with one pending Bash invocation (not approved by
an empty policy) and one pending Read invocation (always approved). -/
def pendingBashMsg : AssistantMessage :=
  ⟨"model-1", "msg-3", "assistant",
   [.toolUse "toolu_1" "Bash" (.obj [("command", .str "rm -rf /some/path")]),
    .toolUse "toolu_2" "Read" (.obj [("file_path", .str "/test/file.txt")])],
   some "tool_use", none, none⟩

/-- An assistant turn with a single pending Read invocation. -/
def pendingReadMsg : AssistantMessage :=
  ⟨"model-1", "msg-4", "assistant",
   [.toolUse "toolu_3" "Read" (.obj [("file_path", .str "/test/file.txt")])],
   some "tool_use", none, none⟩

/-- A small file whose last physical line is not valid JSON. -/
def smallMixedFile : JsonlFile :=
  ⟨[(60, .jsonLine wfUserJson), (60, .jsonLine wfUserJson), (20, .nonJson)]⟩

/-- A small file of two well-formed lines. -/
def smallWfFile : JsonlFile :=
  ⟨[(60, .jsonLine wfUserJson), (60, .jsonLine wfUserJson)]⟩

/-- The four-cycle debounce scenario, cycle 1: the loop starts with
empty maps and seeds from a Working session. -/
def debounceCycle1 : PollState × List String :=
  pollCycle ⟨[], [], true⟩ 0 [⟨"s", .working⟩]

/-- Cycle 2, five seconds in: the session transitions Working to
WaitingForInput. -/
def debounceCycle2 : PollState × List String :=
  pollCycle debounceCycle1.1 5 [⟨"s", .waitingForInput⟩]

/-- Cycle 3, ten seconds in: the session is Working again. -/
def debounceCycle3 : PollState × List String :=
  pollCycle debounceCycle2.1 10 [⟨"s", .working⟩]

/-- Cycle 4, fifteen seconds in: a second Working to WaitingForInput
transition, ten seconds after the cycle-2 notification. -/
def debounceCycle4 : PollState × List String :=
  pollCycle debounceCycle3.1 15 [⟨"s", .waitingForInput⟩]

/-- The process of the straddle scenario, started at t = 1000. -/
def strProc : ClaudeProcess := ⟨42, some ["home", "proj"], 1000⟩

/-- A log file of the same project last modified at t = 990, more than
the 5-second grace before the process start. -/
def strOldFile : SessionFileInfo :=
  ⟨990, "old-session", ["projects", "-home-proj"], ["home", "proj"], "proj", true⟩

/-- A log file of the same project modified at t = 1002, after the
process start. -/
def strNewFile : SessionFileInfo :=
  ⟨1002, "new-session", ["projects", "-home-proj"], ["home", "proj"], "proj", true⟩

/-- The binding the correlator produces in the straddle scenario. -/
def strBound : DetectedSession :=
  ⟨42, ["home", "proj"], ["projects", "-home-proj"], some "new-session", "proj"⟩

/-- A user content array holding a single text block and no tool_result
block. -/
def textOnlyArrayJson : Json :=
  .obj [("role", .str "user"),
        ("content", .arr [.obj [("type", .str "text"), ("text", .str "hi")]])]

/-- A user content array with no extractable text parts. -/
def emptyArrayContentJson : Json :=
  .obj [("role", .str "user"), ("content", .arr [])]

/-- A user content that is a plain string. -/
def stringContentJson : Json :=
  .obj [("role", .str "user"), ("content", .str "a real prompt")]

/-- A string that is not a valid RFC3339 timestamp. -/
def badTs : String := "not-a-timestamp"

theorem nonempty_of_lastMeaningful {entries : List SessionEntry} {e : SessionEntry}
    (h : lastMeaningfulEntry entries = some e) : entries.isEmpty = false := by
  cases entries with
  | nil => simp [lastMeaningfulEntry] at h
  | cons a as => rfl

theorem determine_status_user_eq
    (checker : PermissionChecker) (now : Int) (entries : List SessionEntry)
    (base : SessionEntryBase) (message : UserMessage)
    (h : lastMeaningfulEntry entries = some (.user base message)) :
    determine_status checker now entries =
      if is_entry_recent now base.timestamp 30 then .working else .waitingForInput := by
  have hne : entries.isEmpty = false := nonempty_of_lastMeaningful h
  simp only [determine_status, hne, Bool.false_eq_true, if_false, h]
  cases hm : message.is_tool_result <;> simp [hm]

theorem determine_status_assistant_eq
    (checker : PermissionChecker) (now : Int) (entries : List SessionEntry)
    (base : SessionEntryBase) (msg : AssistantMessage)
    (h : lastMeaningfulEntry entries = some (.assistant base msg)) :
    determine_status checker now entries =
      (match analyze_assistant_message checker msg with
       | .working =>
           if has_pending_tool_uses msg.content then .working
           else if is_entry_recent now base.timestamp 20 then .working
           else .waitingForInput
       | s => s) := by
  have hne : entries.isEmpty = false := nonempty_of_lastMeaningful h
  simp only [determine_status, hne, Bool.false_eq_true, if_false, h]
  cases hA : analyze_assistant_message checker msg <;>
    cases hp : has_pending_tool_uses msg.content <;>
      simp [hA, hp, ite_self]

theorem toolUseIds_eq_nil_of_no_toolUse {content : List MessageContent}
    (h : content.any MessageContent.isToolUse = false) : toolUseIds content = [] := by
  induction content with
  | nil => rfl
  | cons c cs ih =>
    simp only [List.any_cons, Bool.or_eq_false_iff] at h
    obtain ⟨h1, h2⟩ := h
    cases c with
    | toolUse id name input => simp [MessageContent.isToolUse] at h1
    | text t => simpa [toolUseIds, List.filterMap_cons] using ih h2
    | thinking th sig => simpa [toolUseIds, List.filterMap_cons] using ih h2
    | toolResult tid ct ie => simpa [toolUseIds, List.filterMap_cons] using ih h2
    | unknown => simpa [toolUseIds, List.filterMap_cons] using ih h2

theorem completed_of_no_toolUse {content : List MessageContent}
    (h : content.any MessageContent.isToolUse = false) :
    check_all_tools_completed content = true := by
  simp [check_all_tools_completed, toolUseIds_eq_nil_of_no_toolUse h]

theorem any_toolUse_of_not_completed {content : List MessageContent}
    (h : check_all_tools_completed content = false) :
    content.any MessageContent.isToolUse = true := by
  by_contra hn
  simp only [Bool.not_eq_true] at hn
  rw [completed_of_no_toolUse hn] at h
  exact Bool.noConfusion h

theorem analyze_eq_of_no_pending (checker : PermissionChecker) (m : AssistantMessage)
    (h : has_pending_tool_uses m.content = false) :
    analyze_assistant_message checker m = .working ∨
      analyze_assistant_message checker m = .waitingForInput := by
  have hc : check_all_tools_completed m.content = true := by
    simpa [has_pending_tool_uses] using h
  unfold analyze_assistant_message
  by_cases ht : m.content.any MessageContent.isToolUse = true
  · simp only [ht, if_true, hc]
    split <;> simp
  · simp only [Bool.not_eq_true] at ht
    simp only [ht, Bool.false_eq_true, if_false]
    split <;> simp

theorem analyze_eq_of_pending (checker : PermissionChecker) (m : AssistantMessage)
    (h : has_pending_tool_uses m.content = true) :
    analyze_assistant_message checker m =
      (if are_pending_tools_auto_approved checker m.content then .working
       else .needsPermission) := by
  have hc : check_all_tools_completed m.content = false := by
    simpa [has_pending_tool_uses] using h
  have ht : m.content.any MessageContent.isToolUse = true :=
    any_toolUse_of_not_completed hc
  simp [analyze_assistant_message, ht, hc]

/-- C3 counterexample: a window whose last (and only) meaningful entry
is an assistant turn with no pending tool invocations, whose age is
5 seconds (under 20), yet whose status is WaitingForInput, because the
turn carries stop_reason end_turn: the code consults the stop reason
before recency, so the claim's "classifies by recency alone" fails. -/
theorem recent_end_turn_is_not_working :
    lastMeaningfulEntry [.assistant (plainBase tsRecent) endTurnMsg] =
      some (.assistant (plainBase tsRecent) endTurnMsg) ∧
    has_pending_tool_uses endTurnMsg.content = false ∧
    is_entry_recent nowAfterTs (plainBase tsRecent).timestamp 20 = true ∧
    determine_status ⟨[]⟩ nowAfterTs [.assistant (plainBase tsRecent) endTurnMsg] =
      .waitingForInput := by
  refine ⟨rfl, rfl, ?_, ?_⟩ <;> decide

theorem no_pending_status_aux
    (checker : PermissionChecker) (now : Int) (entries : List SessionEntry)
    (base : SessionEntryBase) (msg : AssistantMessage)
    (h : lastMeaningfulEntry entries = some (.assistant base msg))
    (hp : has_pending_tool_uses msg.content = false) :
    (analyze_assistant_message checker msg = .working ∨
      analyze_assistant_message checker msg = .waitingForInput) ∧
    determine_status checker now entries =
      (if analyze_assistant_message checker msg = .working then
         (if is_entry_recent now base.timestamp 20 then .working else .waitingForInput)
       else .waitingForInput) := by
  have hcases := analyze_eq_of_no_pending checker msg hp
  refine ⟨hcases, ?_⟩
  rw [determine_status_assistant_eq checker now entries base msg h]
  rcases hcases with hw | hwf
  · simp [hw, hp]
  · simp [hwf]

/-- C3 (amended): when the last meaningful entry of the window is an
assistant turn with no pending tool invocations, the preliminary content
analysis never asks for permission, and the final status is decided by
recency (age under 20 seconds gives Working, otherwise WaitingForInput)
only when that analysis found the turn still in flight (a tool-free turn
with no stop reason, or an all-tools-completed turn with stop reason
tool_use); with any other stop reason the status is WaitingForInput
regardless of recency. -/
theorem determine_status_no_pending_recency
    (checker : PermissionChecker) (now : Int) (entries : List SessionEntry)
    (base : SessionEntryBase) (msg : AssistantMessage)
    (h : lastMeaningfulEntry entries = some (.assistant base msg))
    (hp : has_pending_tool_uses msg.content = false) :
    (analyze_assistant_message checker msg = .working ∨
      analyze_assistant_message checker msg = .waitingForInput) ∧
    determine_status checker now entries =
      (if analyze_assistant_message checker msg = .working then
         (if is_entry_recent now base.timestamp 20 then .working else .waitingForInput)
       else .waitingForInput) :=
  no_pending_status_aux checker now entries base msg h hp

/-- C3 witness: the amended theorem applied to a concrete window with a
recent streaming assistant turn. -/
theorem determine_status_no_pending_recency_witness :
    (analyze_assistant_message ⟨[]⟩ streamingMsg = .working ∨
      analyze_assistant_message ⟨[]⟩ streamingMsg = .waitingForInput) ∧
    determine_status ⟨[]⟩ nowAfterTs [.assistant (plainBase tsRecent) streamingMsg] =
      (if analyze_assistant_message ⟨[]⟩ streamingMsg = .working then
         (if is_entry_recent nowAfterTs (plainBase tsRecent).timestamp 20 then
            SessionStatus.working
          else .waitingForInput)
       else .waitingForInput) :=
  determine_status_no_pending_recency ⟨[]⟩ nowAfterTs
    [.assistant (plainBase tsRecent) streamingMsg] (plainBase tsRecent) streamingMsg
    rfl rfl

/-- C5: when the last meaningful entry of the window is an assistant
turn with a non-empty set of pending tool invocations (tool uses with no
matching result id in the same turn), the status is Working exactly when
every pending invocation is policy-approved and NeedsPermission
otherwise, with no recency condition anywhere. -/
theorem determine_status_pending_tools
    (checker : PermissionChecker) (now : Int) (entries : List SessionEntry)
    (base : SessionEntryBase) (msg : AssistantMessage)
    (h : lastMeaningfulEntry entries = some (.assistant base msg))
    (hp : has_pending_tool_uses msg.content = true) :
    determine_status checker now entries =
      (if are_pending_tools_auto_approved checker msg.content then .working
       else .needsPermission) := by
  rw [determine_status_assistant_eq checker now entries base msg h,
    analyze_eq_of_pending checker msg hp]
  by_cases happ : are_pending_tools_auto_approved checker msg.content = true
  · simp [happ, hp]
  · simp only [Bool.not_eq_true] at happ
    simp [happ]

/-- C5 witness: with an empty policy, a turn holding a pending Bash
invocation beside a pending Read invocation needs permission, while a
turn holding only a pending Read invocation is working. -/
theorem determine_status_pending_tools_witness :
    determine_status ⟨[]⟩ 0 [.assistant (plainBase tsRecent) pendingBashMsg] =
      (if are_pending_tools_auto_approved ⟨[]⟩ pendingBashMsg.content then
        SessionStatus.working
       else .needsPermission) ∧
    determine_status ⟨[]⟩ 0 [.assistant (plainBase tsRecent) pendingReadMsg] =
      (if are_pending_tools_auto_approved ⟨[]⟩ pendingReadMsg.content then
        SessionStatus.working
       else .needsPermission) :=
  ⟨determine_status_pending_tools ⟨[]⟩ 0 _ (plainBase tsRecent) pendingBashMsg rfl rfl,
   determine_status_pending_tools ⟨[]⟩ 0 _ (plainBase tsRecent) pendingReadMsg rfl rfl⟩

/-- C10: an entry whose timestamp is not valid RFC3339 is never recent,
for any clock and any threshold; consequently a window whose last
meaningful entry is a user turn, or an assistant turn free of tool
invocations, with such a timestamp is classified WaitingForInput, never
Working. -/
theorem unparseable_timestamp_never_working
    (ts : String) (hparse : parseRFC3339 ts = none) :
    (∀ (now seconds : Int), is_entry_recent now ts seconds = false) ∧
    (∀ (checker : PermissionChecker) (now : Int) (entries : List SessionEntry)
       (base : SessionEntryBase) (message : UserMessage),
       lastMeaningfulEntry entries = some (.user base message) →
       base.timestamp = ts →
       determine_status checker now entries = .waitingForInput) ∧
    (∀ (checker : PermissionChecker) (now : Int) (entries : List SessionEntry)
       (base : SessionEntryBase) (msg : AssistantMessage),
       lastMeaningfulEntry entries = some (.assistant base msg) →
       base.timestamp = ts →
       msg.content.any MessageContent.isToolUse = false →
       determine_status checker now entries = .waitingForInput) := by
  have hrec : ∀ (now seconds : Int), is_entry_recent now ts seconds = false := by
    intro now seconds
    simp [is_entry_recent, hparse]
  refine ⟨hrec, ?_, ?_⟩
  · intro checker now entries base message h hts
    rw [determine_status_user_eq checker now entries base message h, hts, hrec]
    simp
  · intro checker now entries base msg h hts htf
    have hpend : has_pending_tool_uses msg.content = false := by
      simp [has_pending_tool_uses, completed_of_no_toolUse htf]
    have := no_pending_status_aux checker now entries base msg h hpend
    rw [this.2]
    rcases this.1 with hw | hwf
    · simp [hw, hts, hrec]
    · simp [hwf]

/-- C10 witness: the theorem applied to the unparseable timestamp
string, a user window and a tool-free assistant window carrying it. -/
theorem unparseable_timestamp_never_working_witness :
    is_entry_recent 0 badTs 30 = false ∧
    determine_status ⟨[]⟩ 0 [.user (plainBase badTs) ⟨"user", "hi", false⟩] =
      .waitingForInput ∧
    determine_status ⟨[]⟩ 0 [.assistant (plainBase badTs) streamingMsg] =
      .waitingForInput :=
  ⟨(unparseable_timestamp_never_working badTs rfl).1 0 30,
   (unparseable_timestamp_never_working badTs rfl).2.1 ⟨[]⟩ 0 _ (plainBase badTs)
     ⟨"user", "hi", false⟩ rfl rfl,
   (unparseable_timestamp_never_working badTs rfl).2.2 ⟨[]⟩ 0 _ (plainBase badTs)
     streamingMsg rfl rfl rfl⟩

/-- C1: the conversation lookup performs no validation of the session
identifier. In the repository's own security-test scenario (an empty
project directory and a secret file outside the projects tree), the
traversal identifier, which contains both .. and /, resolves through
the project directory to HOME/secret.jsonl, the file is read, and its
contents are returned instead of a validation error. -/
theorem get_conversation_data_reads_traversal_path :
    get_conversation_data traversalFS c9home "../../../secret" =
      .ok ⟨"../../../secret", [("2023-01-01", .user, "SECRET_DATA")]⟩ := by
  rfl

/-- C2 counterexample: a well-formed user line followed by a line that
is not valid JSON. The parser returns only the decoded user entry: the
malformed line is silently dropped, where the claim demands a
two-element result whose second element is an Informational (Unknown)
entry. -/
theorem parse_jsonl_entries_drops_malformed :
    parse_jsonl_entries [wfUserLine, .nonJson] = [wfUserEntry] ∧
    (parse_jsonl_entries [wfUserLine, .nonJson]).length = 1 :=
  ⟨rfl, rfl⟩

/-- C2 (amended): no malformed line aborts parsing of the remaining
lines, and every well-formed entry is kept in order; but a line that
fails JSON decoding (non-JSON text, or a recognized record shape with
malformed fields) is silently dropped rather than decoded to an
Informational entry — only a line that is valid JSON with an
unrecognized type tag decodes to the Unknown (Informational) entry. -/
theorem parse_jsonl_entries_amended :
    (∀ (pre post : List RawLine) (bad : RawLine), decodeLine bad = none →
       parse_jsonl_entries (pre ++ bad :: post) = parse_jsonl_entries (pre ++ post)) ∧
    (∀ (fields : List (String × Json)) (tag : String),
       (Json.obj fields).get? "type" = some (.str tag) → tag ∉ knownEntryTags →
       decodeSessionEntry (.obj fields) = some .unknown) := by
  constructor
  · intro pre post bad hbad
    simp [parse_jsonl_entries, List.filterMap_append, List.filterMap_cons, hbad]
  · intro fields tag hget htag
    simp only [knownEntryTags, List.mem_cons, List.mem_singleton, not_or] at htag
    obtain ⟨h1, h2, h3, h4⟩ := htag
    simp [decodeSessionEntry, hget, h1, h2, h3, h4]

/-- C2 witness: the amended theorem applied to a concrete malformed
line between two well-formed ones, and to a concrete progress record. -/
theorem parse_jsonl_entries_amended_witness :
    parse_jsonl_entries ([wfUserLine] ++ RawLine.nonJson :: [wfUserLine]) =
      parse_jsonl_entries ([wfUserLine] ++ [wfUserLine]) ∧
    decodeSessionEntry (.obj [("type", .str "progress")]) = some .unknown :=
  ⟨parse_jsonl_entries_amended.1 [wfUserLine] [wfUserLine] .nonJson rfl,
   parse_jsonl_entries_amended.2 [("type", .str "progress")] "progress" rfl
     (by decide)⟩

/-- C9: the user-message decoder sets is_tool_result unconditionally for
every array-valued content, whatever blocks the array holds; when no
text parts can be extracted the content is the placeholder string; and a
plain-string content is never flagged as a tool result. -/
theorem userMessage_deserialize_array_flag
    (j : Json) :
    (∀ (items : List Json), j.get? "content" = some (.arr items) →
       (UserMessage.deserialize j).is_tool_result = true ∧
       (toolResultParts items = [] →
         (UserMessage.deserialize j).content = "[tool result]")) ∧
    (∀ (s : String), j.get? "content" = some (.str s) →
       (UserMessage.deserialize j).is_tool_result = false ∧
       (UserMessage.deserialize j).content = s) := by
  constructor
  · intro items hget
    constructor
    · simp [UserMessage.deserialize, hget]
    · intro hparts
      simp [UserMessage.deserialize, hget, hparts]
  · intro s hget
    constructor <;> simp [UserMessage.deserialize, hget]

/-- C9 witness: the theorem applied to an array content holding only a
text block (still flagged as a tool result), an array content with no
extractable parts (placeholder content), and a plain-string content. -/
theorem userMessage_deserialize_array_flag_witness :
    (UserMessage.deserialize textOnlyArrayJson).is_tool_result = true ∧
    (UserMessage.deserialize emptyArrayContentJson).content = "[tool result]" ∧
    (UserMessage.deserialize stringContentJson).is_tool_result = false :=
  ⟨((userMessage_deserialize_array_flag textOnlyArrayJson).1
      [.obj [("type", .str "text"), ("text", .str "hi")]] rfl).1,
   ((userMessage_deserialize_array_flag emptyArrayContentJson).1 [] rfl).2 rfl,
   ((userMessage_deserialize_array_flag stringContentJson).2 "a real prompt" rfl).1⟩

theorem length_filterMap_of_isSome {f : α → Option β} :
    ∀ {l : List α}, (∀ x ∈ l, (f x).isSome) → (l.filterMap f).length = l.length := by
  intro l
  induction l with
  | nil => intro _; rfl
  | cons a as ih =>
    intro h
    have ha := h a (List.mem_cons_self a as)
    obtain ⟨b, hb⟩ := Option.isSome_iff_exists.mp ha
    have hrest : ∀ x ∈ as, (f x).isSome := fun x hx => h x (List.mem_cons_of_mem a hx)
    simp [List.filterMap_cons, hb, ih hrest]

theorem filterMap_lastN_of_isSome {f : α → Option β} {l : List α} {n : Nat}
    (h : ∀ x ∈ lastN l n, (f x).isSome) :
    (lastN l n).filterMap f = lastN (l.filterMap f) n := by
  set m := l.length - n with hm
  have hsplit : l.take m ++ l.drop m = l := List.take_append_drop m l
  have hdropN : lastN l n = l.drop m := rfl
  have hlenS : (l.drop m).length = l.length - m := List.length_drop m l
  have hfm : l.filterMap f = (l.take m).filterMap f ++ (l.drop m).filterMap f := by
    conv_lhs => rw [← hsplit]
    exact List.filterMap_append _ _ f
  have hlenFS : ((l.drop m).filterMap f).length = (l.drop m).length := by
    apply length_filterMap_of_isSome
    intro x hx
    exact h x (hdropN ▸ hx)
  by_cases hn : n ≤ l.length
  · have hSlen : (l.drop m).length = n := by omega
    rw [hdropN, lastN, hfm]
    have hlen2 : ((l.take m).filterMap f ++ (l.drop m).filterMap f).length - n
        = ((l.take m).filterMap f).length := by
      simp only [List.length_append]
      omega
    rw [hlen2, List.drop_left]
  · have hm0 : m = 0 := by omega
    have hS : l.drop m = l := by rw [hm0]; rfl
    have hle : (l.filterMap f).length ≤ l.length := List.length_filterMap_le f l
    rw [hdropN, hS, lastN]
    have : (l.filterMap f).length - n = 0 := by omega
    rw [this]
    rfl

/-- C4 counterexample: a 140-byte file (small-file path) whose last
physical line is not valid JSON, with n = 1. The tail parse is empty,
while the last 1 element of the full parse is the last well-formed
entry: tail-parse and last-N-of-full-parse disagree. -/
theorem tail_parse_disagrees_with_full_parse :
    smallMixedFile.size < 10000 ∧
    parse_jsonl_entries (read_last_n_lines smallMixedFile 1) = [] ∧
    lastN (parse_all_entries smallMixedFile) 1 = [wfUserEntry] ∧
    parse_jsonl_entries (read_last_n_lines smallMixedFile 1) ≠
      lastN (parse_all_entries smallMixedFile) 1 := by
  refine ⟨by decide, rfl, rfl, ?_⟩
  intro hcontra
  have hlen : (0 : Nat) = 1 := congrArg List.length hcontra
  exact absurd hlen (by decide)

/-- C4 (amended): on the small-file path (under 10,000 bytes), whenever
every one of the last min(n, count) non-blank lines decodes
successfully, the tail parse equals the last n elements of the full
parse; the equality can fail when a trailing line is malformed (the tail
parse drops it while the full parse's last n elements reach further
back), and on the backward-seek path when the fixed byte chunk does not
cover n complete lines. -/
theorem tail_parse_eq_lastN_full_parse
    (f : JsonlFile) (n : Nat)
    (hsize : f.size < 10000)
    (hpos : ∀ le ∈ f.lines, 0 < le.1)
    (hwf : ∀ l ∈ lastN f.nonblank n, (decodeLine l).isSome) :
    parse_jsonl_entries (read_last_n_lines f n) = lastN (parse_all_entries f) n := by
  by_cases h0 : f.size = 0
  · have hnil : f.lines = [] := by
      cases hl : f.lines with
      | nil => rfl
      | cons a as =>
        exfalso
        have hpa : 0 < a.1 := hpos a (by rw [hl]; exact List.mem_cons_self a as)
        have : f.size = a.1 + ((as.map Prod.fst).sum) := by
          simp [JsonlFile.size, hl]
        omega
    simp [read_last_n_lines, h0, parse_jsonl_entries, parse_all_entries,
      JsonlFile.nonblank, hnil, lastN]
  · have hread : read_last_n_lines f n = lastN f.nonblank n := by
      simp [read_last_n_lines, h0, hsize]
    rw [hread, parse_jsonl_entries, parse_all_entries, parse_jsonl_entries]
    exact filterMap_lastN_of_isSome hwf

/-- C4 witness: the amended theorem applied to a two-line well-formed
file with n = 1. -/
theorem tail_parse_eq_lastN_full_parse_witness :
    parse_jsonl_entries (read_last_n_lines smallWfFile 1) =
      lastN (parse_all_entries smallWfFile) 1 :=
  tail_parse_eq_lastN_full_parse smallWfFile 1 (by decide) (by decide) (by decide)

/-- C8 counterexample: a policy holding the single exact (non-wildcard)
pattern for the command npm ci, and a Bash invocation whose command
string carries a leading space. The code trims the command and approves
it, while the claim's matching relation (exact match of the command
string itself) does not match: approval is not "exactly when" the
command string matches a pattern. -/
theorem is_auto_approved_trims_before_matching :
    PermissionChecker.is_auto_approved ⟨[.bash "npm ci" false]⟩ "Bash"
      (.obj [("command", .str " npm ci")]) = true ∧
    specBashCommandMatches [.bash "npm ci" false] " npm ci" = false := by
  constructor <;> decide

/-- C8 (amended): the hard-coded read-only tool set is approved
regardless of the loaded patterns; a Bash invocation is approved exactly
when its whitespace-trimmed command string matches some allow-pattern
(by string prefix for a wildcard pattern, exactly for a non-wildcard
pattern); and an absent or unparseable settings source yields the empty
policy, under which exactly the hard-coded set is approved. -/
theorem is_auto_approved_spec :
    (∀ (c : PermissionChecker) (name : String) (input : Json),
       alwaysApprovedTools.contains name = true →
       c.is_auto_approved name input = true) ∧
    (∀ (c : PermissionChecker) (input : Json) (cmd : String),
       (input.get? "command").bind Json.asStr = some cmd →
       (c.is_auto_approved "Bash" input = true ↔
         ∃ pat ∈ c.allowed_patterns, bashPatternMatches pat (strTrim cmd) = true)) ∧
    (PermissionChecker.from_file none = ⟨[]⟩ ∧
     PermissionChecker.from_file (some none) = ⟨[]⟩ ∧
     (∀ (name : String) (input : Json),
        PermissionChecker.is_auto_approved ⟨[]⟩ name input = true ↔
          alwaysApprovedTools.contains name = true)) := by
  refine ⟨?_, ?_, rfl, rfl, ?_⟩
  · intro c name input h
    have hm : name ∈ alwaysApprovedTools := by simpa using h
    simp [PermissionChecker.is_auto_approved, hm]
  · intro c input cmd h
    have hb : "Bash" ∉ alwaysApprovedTools := by decide
    simp [PermissionChecker.is_auto_approved, hb, h,
      PermissionChecker.is_bash_allowed, List.any_eq_true]
  · intro name input
    constructor
    · intro h
      by_cases hm : name ∈ alwaysApprovedTools
      · simpa using hm
      · exfalso
        simp [PermissionChecker.is_auto_approved, hm, PermissionChecker.is_bash_allowed,
          PermissionChecker.is_tool_allowed, PermissionChecker.is_mcp_allowed] at h
    · intro h
      have hm : name ∈ alwaysApprovedTools := by simpa using h
      simp [PermissionChecker.is_auto_approved, hm]

/-- C8 witness: the amended theorem applied to the always-approved Read
tool under the empty policy, to a concrete wildcard bash approval, and
to the empty policy obtained from an absent source. -/
theorem is_auto_approved_spec_witness :
    PermissionChecker.is_auto_approved ⟨[]⟩ "Read" (.obj []) = true ∧
    (PermissionChecker.is_auto_approved ⟨[.bash "git add" true]⟩ "Bash"
        (.obj [("command", .str "git add .")]) = true ↔
      ∃ pat ∈ [AllowPattern.bash "git add" true],
        bashPatternMatches pat (strTrim "git add .") = true) ∧
    (PermissionChecker.is_auto_approved ⟨[]⟩ "Write" (.obj []) = true ↔
      alwaysApprovedTools.contains "Write" = true) :=
  ⟨is_auto_approved_spec.1 ⟨[]⟩ "Read" (.obj []) (by decide),
   is_auto_approved_spec.2.1 ⟨[.bash "git add" true]⟩
     (.obj [("command", .str "git add .")]) "git add ." rfl,
   is_auto_approved_spec.2.2.2.2 "Write" (.obj [])⟩

theorem alInsert_lookup_self {α : Type} (m : List (String × α)) (k : String) (v : α) :
    (alInsert m k v).lookup k = some v := by
  simp [alInsert, List.lookup]

theorem lookup_filter_ne {α : Type} (m : List (String × α)) (k k' : String)
    (h : ¬ k' = k) :
    (m.filter fun kv => ! (kv.1 == k)).lookup k' = m.lookup k' := by
  induction m with
  | nil => rfl
  | cons kv rest ih =>
    obtain ⟨k1, v1⟩ := kv
    rw [List.filter_cons]
    by_cases hk : k1 = k
    · have hne : (k' == k) = false := beq_eq_false_iff_ne.mpr h
      simp [hk, List.lookup, hne, ih]
    · by_cases hx : k' = k1
      · simp [hk, List.lookup, hx]
      · have hne : (k' == k1) = false := beq_eq_false_iff_ne.mpr hx
        simp [hk, List.lookup, hne, ih]

theorem alInsert_lookup_ne {α : Type} (m : List (String × α)) (k : String) (v : α)
    (k' : String) (h : ¬ k' = k) :
    (alInsert m k v).lookup k' = m.lookup k' := by
  have hne : (k' == k) = false := by simp [h]
  simp only [alInsert, List.lookup, hne]
  exact lookup_filter_ne m k k' h

theorem alInsert_lookup_congr {α : Type} (m₁ m₂ : List (String × α)) (k : String)
    (v : α) (x : String) (h : m₁.lookup x = m₂.lookup x) :
    (alInsert m₁ k v).lookup x = (alInsert m₂ k v).lookup x := by
  by_cases hx : x = k
  · subst hx
    rw [alInsert_lookup_self, alInsert_lookup_self]
  · rw [alInsert_lookup_ne m₁ k v x hx, alInsert_lookup_ne m₂ k v x hx]
    exact h

theorem notifyLoop_fired_congr (now : Nat) :
    ∀ (ss : List PollSessionView) (m₁ m₂ : List (String × SessionStatus))
      (ln₁ ln₂ : List (String × Nat)),
      (∀ s ∈ ss, m₁.lookup s.id = m₂.lookup s.id) →
      (∀ s ∈ ss, ln₁.lookup s.id = ln₂.lookup s.id) →
      (notifyLoop now ss m₁ ln₁).2.2 = (notifyLoop now ss m₂ ln₂).2.2 := by
  intro ss
  induction ss with
  | nil => intro _ _ _ _ _ _; rfl
  | cons s rest ih =>
    intro m₁ m₂ ln₁ ln₂ hm hln
    have hms := hm s (List.mem_cons_self _ _)
    have hlns := hln s (List.mem_cons_self _ _)
    have hmr : ∀ x ∈ rest, m₁.lookup x.id = m₂.lookup x.id :=
      fun x hx => hm x (List.mem_cons_of_mem _ hx)
    have hlnr : ∀ x ∈ rest, ln₁.lookup x.id = ln₂.lookup x.id :=
      fun x hx => hln x (List.mem_cons_of_mem _ hx)
    cases hv : m₁.lookup s.id with
    | none =>
      have hv2 : m₂.lookup s.id = none := hms.symm.trans hv
      simp only [notifyLoop, hv, hv2]
      exact ih _ _ _ _
        (fun x hx => alInsert_lookup_congr _ _ _ _ _ (hmr x hx)) hlnr
    | some prev =>
      have hv2 : m₂.lookup s.id = some prev := hms.symm.trans hv
      simp only [notifyLoop, hv, hv2, hlns]
      by_cases hcond :
          ((prev = SessionStatus.working &&
              (s.status = SessionStatus.needsPermission ∨
                s.status = SessionStatus.waitingForInput)) &&
            !(match ln₂.lookup s.id with
              | some t => now - t < 30
              | none => false) : Bool) = true
      · simp only [hcond, if_true]
        have hrec := ih (alInsert m₁ s.id s.status) (alInsert m₂ s.id s.status)
          (alInsert ln₁ s.id now) (alInsert ln₂ s.id now)
          (fun x hx => alInsert_lookup_congr _ _ _ _ _ (hmr x hx))
          (fun x hx => alInsert_lookup_congr _ _ _ _ _ (hlnr x hx))
        simpa using hrec
      · simp only [Bool.not_eq_true] at hcond
        simp only [hcond, Bool.false_eq_true, if_false]
        exact ih _ _ _ _
          (fun x hx => alInsert_lookup_congr _ _ _ _ _ (hmr x hx)) hlnr

theorem notifyLoop_fired_spec (now : Nat) :
    ∀ (ss : List PollSessionView) (m : List (String × SessionStatus))
      (ln : List (String × Nat)),
      (ss.map fun s => s.id).Nodup →
      (notifyLoop now ss m ln).2.2 =
        ss.filterMap fun s =>
          if shouldFireNotification m ln now s then some s.id else none := by
  intro ss
  induction ss with
  | nil => intro _ _ _; rfl
  | cons s rest ih =>
    intro m ln hnod
    simp only [List.map_cons, List.nodup_cons] at hnod
    obtain ⟨hid, hnod'⟩ := hnod
    have hne : ∀ x ∈ rest, ¬ x.id = s.id := by
      intro x hx hEq
      exact hid (hEq ▸ List.mem_map_of_mem (fun s => s.id) hx)
    have hcongr_m : ∀ x ∈ rest,
        (alInsert m s.id s.status).lookup x.id = m.lookup x.id :=
      fun x hx => alInsert_lookup_ne m s.id s.status x.id (hne x hx)
    have hcongr_ln : ∀ x ∈ rest,
        (alInsert ln s.id now).lookup x.id = ln.lookup x.id :=
      fun x hx => alInsert_lookup_ne ln s.id now x.id (hne x hx)
    cases hv : m.lookup s.id with
    | none =>
      have hsf : shouldFireNotification m ln now s = false := by
        simp [shouldFireNotification, hv]
      simp only [notifyLoop, hv, List.filterMap_cons, hsf, Bool.false_eq_true, if_false]
      calc (notifyLoop now rest (alInsert m s.id s.status) ln).2.2
          = (notifyLoop now rest m ln).2.2 :=
            notifyLoop_fired_congr now rest _ _ _ _ hcongr_m (fun _ _ => rfl)
        _ = _ := ih m ln hnod'
    | some prev =>
      have hcond : ((prev = SessionStatus.working &&
            (s.status = SessionStatus.needsPermission ∨
              s.status = SessionStatus.waitingForInput)) &&
          !(match ln.lookup s.id with
            | some t => now - t < 30
            | none => false) : Bool) = shouldFireNotification m ln now s := by
        simp [shouldFireNotification, hv]
      by_cases hf : shouldFireNotification m ln now s = true
      · simp only [notifyLoop, hv, hcond, hf, if_true, List.filterMap_cons]
        have : (notifyLoop now rest (alInsert m s.id s.status)
            (alInsert ln s.id now)).2.2 = (notifyLoop now rest m ln).2.2 :=
          notifyLoop_fired_congr now rest _ _ _ _ hcongr_m hcongr_ln
        rw [this, ih m ln hnod']
      · simp only [Bool.not_eq_true] at hf
        simp only [notifyLoop, hv, hcond, hf, Bool.false_eq_true, if_false,
          List.filterMap_cons]
        calc (notifyLoop now rest (alInsert m s.id s.status) ln).2.2
            = (notifyLoop now rest m ln).2.2 :=
              notifyLoop_fired_congr now rest _ _ _ _ hcongr_m (fun _ _ => rfl)
          _ = _ := ih m ln hnod'

/-- C6: the poll loop never notifies on the very first cycle (statuses
are seeded silently); on every later cycle the ids notified are exactly
the sessions whose previous recorded status was Working, whose current
status is NeedsPermission or WaitingForInput, and for which no
notification fired within the last 30 seconds; and in the concrete
four-cycle run where one session makes two Working-to-WaitingForInput
transitions 10 seconds apart, exactly one notification fires. -/
theorem pollCycle_notification_spec :
    (∀ (st : PollState) (now : Nat) (sessions : List PollSessionView),
       st.is_first_cycle = true → (pollCycle st now sessions).2 = []) ∧
    (∀ (st : PollState) (now : Nat) (sessions : List PollSessionView),
       st.is_first_cycle = false → (sessions.map fun s => s.id).Nodup →
       (pollCycle st now sessions).2 =
         sessions.filterMap fun s =>
           if shouldFireNotification st.previous_status st.last_notification_time now s
           then some s.id else none) ∧
    (debounceCycle1.2 = [] ∧ debounceCycle2.2 = ["s"] ∧
     debounceCycle3.2 = [] ∧ debounceCycle4.2 = []) := by
  refine ⟨?_, ?_, by decide, by decide, by decide, by decide⟩
  · intro st now sessions h
    simp [pollCycle, h]
  · intro st now sessions h hnod
    simp only [pollCycle, h, Bool.false_eq_true, if_false]
    exact notifyLoop_fired_spec now sessions st.previous_status
      st.last_notification_time hnod

/-- C6 witness: the theorem applied to a concrete first cycle and to a
concrete later cycle where the recorded status is Working and the
session now needs permission. -/
theorem pollCycle_notification_spec_witness :
    (pollCycle ⟨[("s", .working)], [], true⟩ 7 [⟨"s", .needsPermission⟩]).2 = [] ∧
    (pollCycle ⟨[("s", .working)], [], false⟩ 7 [⟨"s", .needsPermission⟩]).2 =
      [(⟨"s", .needsPermission⟩ : PollSessionView)].filterMap fun s =>
        if shouldFireNotification [("s", .working)] [] 7 s then some s.id else none :=
  ⟨pollCycle_notification_spec.1 ⟨[("s", .working)], [], true⟩ 7 [⟨"s", .needsPermission⟩] rfl,
   pollCycle_notification_spec.2.1 ⟨[("s", .working)], [], false⟩ 7
     [⟨"s", .needsPermission⟩] rfl (by decide)⟩

theorem insertLe_perm (le : α → α → Bool) (a : α) (l : List α) :
    (insertLe le a l).Perm (a :: l) := by
  induction l with
  | nil => exact List.Perm.refl _
  | cons b bs ih =>
    by_cases h : le a b = true
    · simp [insertLe, h]
    · simp only [insertLe, h, Bool.false_eq_true, if_false]
      exact (List.Perm.cons b ih).trans (List.Perm.swap a b bs)

theorem sortBy_perm (le : α → α → Bool) (l : List α) : (sortBy le l).Perm l := by
  induction l with
  | nil => exact List.Perm.refl _
  | cons a as ih =>
    exact (insertLe_perm le a (sortBy le as)).trans (List.Perm.cons a ih)

theorem insertLe_pairwise {le : α → α → Bool}
    (htot : ∀ a b, le a b = true ∨ le b a = true)
    (htrans : ∀ a b c, le a b = true → le b c = true → le a c = true)
    (a : α) {l : List α} (hl : l.Pairwise fun x y => le x y = true) :
    (insertLe le a l).Pairwise fun x y => le x y = true := by
  induction l with
  | nil => simp [insertLe]
  | cons b bs ih =>
    obtain ⟨hb, hbs⟩ := List.pairwise_cons.mp hl
    by_cases h : le a b = true
    · simp only [insertLe, h, if_true]
      refine List.pairwise_cons.mpr ⟨?_, hl⟩
      intro y hy
      rcases List.mem_cons.mp hy with rfl | hy'
      · exact h
      · exact htrans a b y h (hb y hy')
    · have hba : le b a = true := (htot a b).resolve_left h
      simp only [insertLe, h, Bool.false_eq_true, if_false]
      refine List.pairwise_cons.mpr ⟨?_, ih hbs⟩
      intro y hy
      have hy2 : y ∈ a :: bs := (insertLe_perm le a bs).mem_iff.mp hy
      rcases List.mem_cons.mp hy2 with rfl | hy'
      · exact hba
      · exact hb y hy'

theorem sortBy_pairwise {le : α → α → Bool}
    (htot : ∀ a b, le a b = true ∨ le b a = true)
    (htrans : ∀ a b c, le a b = true → le b c = true → le a c = true)
    (l : List α) :
    (sortBy le l).Pairwise fun x y => le x y = true := by
  induction l with
  | nil => simp [sortBy]
  | cons a as ih => exact insertLe_pairwise htot htrans a ih

theorem find?_max_of_pairwise {p : α → Bool} {key : α → Nat} :
    ∀ {l : List α} {x : α},
      l.Pairwise (fun a b => key b ≤ key a) → l.find? p = some x →
      ∀ y ∈ l, p y = true → key y ≤ key x := by
  intro l
  induction l with
  | nil => intro x _ hf; simp [List.find?] at hf
  | cons a as ih =>
    intro x hp hf y hy hpy
    obtain ⟨ha, has⟩ := List.pairwise_cons.mp hp
    cases hpa : p a with
    | true =>
      have hxa : x = a := by
        rw [List.find?_cons_of_pos as hpa] at hf
        exact (Option.some.inj hf).symm
      subst hxa
      rcases List.mem_cons.mp hy with rfl | hy'
      · exact Nat.le_refl _
      · exact ha y hy'
    | false =>
      rw [List.find?_cons_of_neg as (by simp [hpa])] at hf
      rcases List.mem_cons.mp hy with rfl | hy'
      · rw [hpy] at hpa; exact Bool.noConfusion hpa
      · exact ih has hf y hy' hpy

theorem faGo_claimed (files : List SessionFileInfo) :
    ∀ (procs : List ClaudeProcess) (used : List String),
      (claimedIds (faGo files procs used)).Nodup ∧
      ∀ id ∈ claimedIds (faGo files procs used), id ∉ used := by
  intro procs
  induction procs with
  | nil =>
    intro used
    exact ⟨List.nodup_nil, by simp [faGo, claimedIds]⟩
  | cons p rest ih =>
    intro used
    cases hc : p.cwd with
    | none => simpa [faGo, hc] using ih used
    | some cwd =>
      cases hf : files.find? (fileEligible used p cwd) with
      | none => simpa [faGo, hc, hf] using ih used
      | some f =>
        have hpred := List.find?_some hf
        have havail : sessionAvailable used f = true := by
          simp only [fileEligible, Bool.and_eq_true] at hpred
          exact hpred.1.1
        have hfs : f.sid ∉ used := by
          simpa [sessionAvailable] using havail
        have ihrec := ih (f.sid :: used)
        constructor
        · simp only [faGo, hc, hf, claimedIds, List.filterMap_cons]
          refine List.nodup_cons.mpr ⟨?_, ihrec.1⟩
          intro hmem
          exact (ihrec.2 f.sid hmem) (List.mem_cons_self _ _)
        · simp only [faGo, hc, hf, claimedIds, List.filterMap_cons]
          intro id hid
          rcases List.mem_cons.mp hid with rfl | hid'
          · exact hfs
          · intro hu
            exact (ihrec.2 id hid') (List.mem_cons_of_mem _ hu)

theorem faGo_spec (files : List SessionFileInfo)
    (hs : files.Pairwise fun a b => b.modified ≤ a.modified) :
    ∀ (procs : List ClaudeProcess) (used : List String),
      ∀ s ∈ faGo files procs used,
        ∃ p, p ∈ procs ∧ ∃ f, f ∈ files ∧
          s.pid = p.pid ∧ p.cwd = some s.cwd ∧ s.session_id = some f.sid ∧
          s.project_path = f.project_dir ∧ s.project_name = f.project_name ∧
          f.modified + 5 ≥ p.start_time ∧
          pathMatches s.cwd (encodedCwd s.cwd) f = true ∧
          ∀ f' ∈ files, f'.sid ∉ used →
            f'.sid ∉ claimedIds (faGo files procs used) →
            f'.modified + 5 ≥ p.start_time →
            pathMatches s.cwd (encodedCwd s.cwd) f' = true →
            f'.modified ≤ f.modified := by
  intro procs
  induction procs with
  | nil => intro used s hmem; simp [faGo] at hmem
  | cons p rest ih =>
    intro used s hmem
    cases hc : p.cwd with
    | none =>
      simp only [faGo, hc] at hmem ⊢
      obtain ⟨p', hp', rest'⟩ := ih used s hmem
      exact ⟨p', List.mem_cons_of_mem _ hp', rest'⟩
    | some cwd =>
      cases hf : files.find? (fileEligible used p cwd) with
      | none =>
        simp only [faGo, hc, hf] at hmem ⊢
        obtain ⟨p', hp', rest'⟩ := ih used s hmem
        exact ⟨p', List.mem_cons_of_mem _ hp', rest'⟩
      | some f0 =>
        simp only [faGo, hc, hf] at hmem ⊢
        have hpred := List.find?_some hf
        simp only [fileEligible, Bool.and_eq_true, decide_eq_true_eq] at hpred
        obtain ⟨⟨havail, hel⟩, hmat⟩ := hpred
        have hf0mem : f0 ∈ files := List.mem_of_find?_eq_some hf
        rcases List.mem_cons.mp hmem with rfl | hrec
        · -- s is the session bound to p in this step
          refine ⟨p, List.mem_cons_self _ _, f0, hf0mem,
            rfl, hc, rfl, rfl, rfl, hel, hmat, ?_⟩
          intro f' hf' hnu hnc hel' hmat'
          have hnc' : f'.sid ≠ f0.sid := by
            simp only [claimedIds, List.filterMap_cons] at hnc
            intro hEq
            exact hnc (hEq ▸ List.mem_cons_self _ _)
          have hpred' : fileEligible used p cwd f' = true := by
            simp only [fileEligible, Bool.and_eq_true, decide_eq_true_eq]
            exact ⟨⟨by simpa [sessionAvailable] using hnu, hel'⟩, hmat'⟩
          exact find?_max_of_pairwise hs hf f' hf' hpred'
        · -- s was bound in a later step
          obtain ⟨p', hp', f', hf', heq⟩ := ih (f0.sid :: used) s hrec
          refine ⟨p', List.mem_cons_of_mem _ hp', f', hf',
            heq.1, heq.2.1, heq.2.2.1, heq.2.2.2.1, heq.2.2.2.2.1,
            heq.2.2.2.2.2.1, heq.2.2.2.2.2.2.1, ?_⟩
          intro f'' hf'' hnu hnc hel'' hmat''
          have hnc0 : f''.sid ∉ claimedIds
              (faGo files rest (f0.sid :: used)) := by
            simp only [claimedIds, List.filterMap_cons] at hnc
            intro hmem2
            exact hnc (List.mem_cons_of_mem _ hmem2)
          have hne0 : f''.sid ≠ f0.sid := by
            simp only [claimedIds, List.filterMap_cons] at hnc
            intro hEq
            exact hnc (hEq ▸ List.mem_cons_self _ _)
          have hnu' : f''.sid ∉ f0.sid :: used := by
            intro hmem2
            rcases List.mem_cons.mp hmem2 with hEq | hmem3
            · exact hne0 hEq
            · exact hnu hmem3
          exact heq.2.2.2.2.2.2.2 f'' hf'' hnu' hnc0 hel'' hmat''

/-- C7: the correlator claims each session id at most once (no two
processes bind to the same session), and every emitted binding pairs a
process with a candidate file whose directory matches it by one of the
two evidence sources, whose modification time plus the 5-second grace
buffer is at or after the process start, and which is the
most-recently-modified among the matching eligible candidates that end
up unclaimed — in particular, of two matching files straddling the
process start, the older ineligible one is never chosen. -/
theorem find_active_sessions_spec
    (processes : List ClaudeProcess) (session_files : List SessionFileInfo) :
    (claimedIds (find_active_sessions processes session_files)).Nodup ∧
    ∀ s ∈ find_active_sessions processes session_files,
      ∃ p, p ∈ processes ∧ ∃ f, f ∈ session_files ∧
        s.pid = p.pid ∧ p.cwd = some s.cwd ∧ s.session_id = some f.sid ∧
        s.project_path = f.project_dir ∧ s.project_name = f.project_name ∧
        f.modified + 5 ≥ p.start_time ∧
        pathMatches s.cwd (encodedCwd s.cwd) f = true ∧
        ∀ f' ∈ session_files,
          f'.sid ∉ claimedIds (find_active_sessions processes session_files) →
          f'.modified + 5 ≥ p.start_time →
          pathMatches s.cwd (encodedCwd s.cwd) f' = true →
          f'.modified ≤ f.modified := by
  have hfiles_perm :
      (sortBy (fun a b => decide (b.modified ≤ a.modified)) session_files).Perm
        session_files := sortBy_perm _ _
  have hprocs_perm :
      (sortBy (fun a b => decide (b.start_time ≤ a.start_time)) processes).Perm
        processes := sortBy_perm _ _
  have hunfold : find_active_sessions processes session_files =
      faGo (sortBy (fun a b => decide (b.modified ≤ a.modified)) session_files)
        (sortBy (fun a b => decide (b.start_time ≤ a.start_time)) processes) [] := rfl
  have hs : (sortBy (fun a b => decide (b.modified ≤ a.modified))
      session_files).Pairwise (fun a b => b.modified ≤ a.modified) := by
    have hp := @sortBy_pairwise SessionFileInfo
      (fun a b : SessionFileInfo => decide (b.modified ≤ a.modified))
      (fun a b => by
        rcases Nat.le_total b.modified a.modified with h | h <;> simp [h])
      (fun a b c hab hbc => by
        simp only [decide_eq_true_eq] at hab hbc ⊢
        omega)
      session_files
    exact hp.imp fun h => of_decide_eq_true h
  constructor
  · rw [hunfold]
    exact (faGo_claimed _ _ []).1
  · intro s hmem
    rw [hunfold] at hmem
    obtain ⟨p, hp, f, hf, h1, h2, h3, h4, h5, h6, h7, hmax⟩ :=
      faGo_spec _ hs _ [] s hmem
    refine ⟨p, hprocs_perm.mem_iff.mp hp, f, hfiles_perm.mem_iff.mp hf,
      h1, h2, h3, h4, h5, h6, h7, ?_⟩
    intro f' hf' hnc hel hmat
    rw [hunfold] at hnc
    exact hmax f' (hfiles_perm.mem_iff.mpr hf') (by simp) hnc hel hmat

/-- C7 witness: the straddle scenario — one process started at t = 1000
and two matching files of its project modified at t = 990 and t = 1002;
the theorem applies to the binding produced, which claims the newer
file. -/
theorem find_active_sessions_spec_witness :
    ∃ p, p ∈ [strProc] ∧ ∃ f, f ∈ [strOldFile, strNewFile] ∧
      strBound.pid = p.pid ∧ p.cwd = some strBound.cwd ∧
      strBound.session_id = some f.sid ∧
      strBound.project_path = f.project_dir ∧
      strBound.project_name = f.project_name ∧
      f.modified + 5 ≥ p.start_time ∧
      pathMatches strBound.cwd (encodedCwd strBound.cwd) f = true ∧
      ∀ f' ∈ [strOldFile, strNewFile],
        f'.sid ∉ claimedIds (find_active_sessions [strProc] [strOldFile, strNewFile]) →
        f'.modified + 5 ≥ p.start_time →
        pathMatches strBound.cwd (encodedCwd strBound.cwd) f' = true →
        f'.modified ≤ f.modified :=
  (find_active_sessions_spec [strProc] [strOldFile, strNewFile]).2 strBound (by decide)
